import Mathlib

/-!
Verification development for the `dndc_streamlit` repository, a pair of
Streamlit tools: `update_config.py` (JSON configuration editor for DNDC
event/soil data) and `dndc_dashboard.py` (time-series dashboard).  The
Python functions are shallowly embedded: JSON scalars and containers are
the inductive `Dndc.JVal`, Python dicts are association lists with
first-binding lookup and in-place update, and fallible Python code
(uncaught exceptions) is modelled with `Option`.
-/

set_option autoImplicit false

namespace Dndc

/-- JSON values as produced by `json.load`: strings, integers, floats
(modelled as exact rationals), booleans, arrays and string-keyed objects. -/
inductive JVal where
  | str : String → JVal
  | int : Int → JVal
  | rat : ℚ → JVal
  | bool : Bool → JVal
  | arr : List JVal → JVal
  | obj : List (String × JVal) → JVal

mutual

/-- Structural boolean equality on `JVal` (and, mutually, on the list
arguments of `arr` and `obj`). -/
def beqJ : JVal → JVal → Bool
  | .str a, .str b => a == b
  | .int a, .int b => a == b
  | .rat a, .rat b => a == b
  | .bool a, .bool b => a == b
  | .arr a, .arr b => beqJL a b
  | .obj a, .obj b => beqJO a b
  | _, _ => false

/-- Boolean equality on `List JVal`. -/
def beqJL : List JVal → List JVal → Bool
  | [], [] => true
  | x :: xs, y :: ys => beqJ x y && beqJL xs ys
  | _, _ => false

/-- Boolean equality on `List (String × JVal)`. -/
def beqJO : List (String × JVal) → List (String × JVal) → Bool
  | [], [] => true
  | (k, x) :: xs, (k', y) :: ys => k == k' && beqJ x y && beqJO xs ys
  | _, _ => false

end

mutual

theorem beqJ_refl : ∀ a, beqJ a a = true
  | .str a => by simp [beqJ]
  | .int a => by simp [beqJ]
  | .rat a => by simp [beqJ]
  | .bool a => by simp [beqJ]
  | .arr a => by simp [beqJ]; exact beqJL_refl a
  | .obj a => by simp [beqJ]; exact beqJO_refl a

theorem beqJL_refl : ∀ l, beqJL l l = true
  | [] => rfl
  | x :: xs => by simp [beqJL]; exact ⟨beqJ_refl x, beqJL_refl xs⟩

theorem beqJO_refl : ∀ l, beqJO l l = true
  | [] => rfl
  | (k, x) :: xs => by simp [beqJO]; exact ⟨beqJ_refl x, beqJO_refl xs⟩

end

mutual

theorem beqJ_sound : ∀ a b, beqJ a b = true → a = b
  | .str a, .str b, h => by simpa [beqJ] using h
  | .int a, .int b, h => by simpa [beqJ] using h
  | .rat a, .rat b, h => by simpa [beqJ] using h
  | .bool a, .bool b, h => by simpa [beqJ] using h
  | .arr a, .arr b, h => by
      rw [beqJL_sound a b (by simpa [beqJ] using h)]
  | .obj a, .obj b, h => by
      rw [beqJO_sound a b (by simpa [beqJ] using h)]
  | .str _, .int _, h | .str _, .rat _, h | .str _, .bool _, h
  | .str _, .arr _, h | .str _, .obj _, h
  | .int _, .str _, h | .int _, .rat _, h | .int _, .bool _, h
  | .int _, .arr _, h | .int _, .obj _, h
  | .rat _, .str _, h | .rat _, .int _, h | .rat _, .bool _, h
  | .rat _, .arr _, h | .rat _, .obj _, h
  | .bool _, .str _, h | .bool _, .int _, h | .bool _, .rat _, h
  | .bool _, .arr _, h | .bool _, .obj _, h
  | .arr _, .str _, h | .arr _, .int _, h | .arr _, .rat _, h
  | .arr _, .bool _, h | .arr _, .obj _, h
  | .obj _, .str _, h | .obj _, .int _, h | .obj _, .rat _, h
  | .obj _, .bool _, h | .obj _, .arr _, h => by simp [beqJ] at h

theorem beqJL_sound : ∀ a b, beqJL a b = true → a = b
  | [], [], _ => rfl
  | x :: xs, y :: ys, h => by
      have h' := h
      simp only [beqJL, Bool.and_eq_true] at h'
      rw [beqJ_sound x y h'.1, beqJL_sound xs ys h'.2]
  | [], _ :: _, h | _ :: _, [], h => by simp [beqJL] at h

theorem beqJO_sound : ∀ a b, beqJO a b = true → a = b
  | [], [], _ => rfl
  | (k, x) :: xs, (k', y) :: ys, h => by
      have h' := h
      simp only [beqJO, Bool.and_eq_true] at h'
      obtain ⟨⟨hk, hv⟩, ht⟩ := h'
      rw [show k = k' from by simpa using hk, beqJ_sound x y hv,
        beqJO_sound xs ys ht]
  | [], _ :: _, h | _ :: _, [], h => by simp [beqJO] at h

end

instance : DecidableEq JVal := fun a b =>
  decidable_of_iff (beqJ a b = true)
    ⟨beqJ_sound a b, fun h => h ▸ beqJ_refl a⟩

/-- A Python dict with string keys, as the event/soil records of
`update_config.py` are: an association list where lookup returns the first
binding.  Well-formed dicts have pairwise distinct keys. -/
abbrev JRecord := List (String × JVal)

/-- Python truthiness of a JSON-derived value (`if value:`): empty string,
zero, `False`, empty list and empty dict are falsy. -/
def truthy : JVal → Bool
  | .str s => !s.isEmpty
  | .int n => n != 0
  | .rat q => q != 0
  | .bool b => b
  | .arr l => !l.isEmpty
  | .obj l => !l.isEmpty

/-- Python `d.get(k)` / `d[k]`: the first binding for `k`, if any. -/
def dget : JRecord → String → Option JVal
  | [], _ => none
  | p :: e, k => if k = p.1 then some p.2 else dget e k

/-- Python `d.get(k, default)`. -/
def dgetD (e : JRecord) (k : String) (d : JVal) : JVal :=
  (dget e k).getD d

/-- Python `d[k] = v`: update the existing binding in place (keeping its
position in insertion order), else append a new binding. -/
def dset : JRecord → String → JVal → JRecord
  | [], k, v => [(k, v)]
  | p :: e, k, v => if p.1 = k then (k, v) :: e else p :: dset e k v

/-- Key list of a record, in insertion order. -/
def keys (e : JRecord) : List String :=
  e.map Prod.fst

/-- Applying a sequence of `d[k] = v` assignments in order. -/
def wfold (e : JRecord) (ws : List (String × JVal)) : JRecord :=
  ws.foldl (fun a p => dset a p.1 p.2) e

/-- The value of the last assignment to `k` in a write sequence, if any. -/
def lastWrite (ws : List (String × JVal)) (k : String) : Option JVal :=
  dget ws.reverse k

theorem dget_append (e₁ e₂ : JRecord) (k : String) :
    dget (e₁ ++ e₂) k = (dget e₁ k).or (dget e₂ k) := by
  induction e₁ with
  | nil => simp [dget]
  | cons p e ih =>
    by_cases h : k = p.1 <;> simp [dget, h, ih]

theorem dget_isSome_iff_mem_keys (e : JRecord) (k : String) :
    (dget e k).isSome = true ↔ k ∈ keys e := by
  induction e with
  | nil => simp [dget, keys]
  | cons p e ih =>
    by_cases h : k = p.1 <;> simp [dget, keys, h, ih]

theorem dget_eq_none_of_not_mem_keys {e : JRecord} {k : String}
    (h : k ∉ keys e) : dget e k = none := by
  cases hd : dget e k with
  | none => rfl
  | some v =>
    exact absurd ((dget_isSome_iff_mem_keys e k).1 (by simp [hd])) h

theorem dget_dset (e : JRecord) (k k' : String) (v : JVal) :
    dget (dset e k v) k' = if k' = k then some v else dget e k' := by
  induction e with
  | nil => by_cases h : k' = k <;> simp [dset, dget, h]
  | cons p e ih =>
    by_cases hp : p.1 = k
    · by_cases h : k' = k
      · simp [dset, hp, dget, h]
      · simp [dset, hp, dget, h, hp ▸ h]
    · by_cases h : k' = p.1
      · have : ¬ k' = k := fun hh => hp (by rw [← h, hh])
        simp [dset, hp, dget, h, this]
      · simp [dset, hp, dget, h, ih]

theorem keys_dset (e : JRecord) (k : String) (v : JVal) :
    keys (dset e k v) = if k ∈ keys e then keys e else keys e ++ [k] := by
  induction e with
  | nil => simp [dset, keys]
  | cons p e ih =>
    by_cases hp : p.1 = k
    · simp [dset, hp, keys]
    · have hne : ¬ k = p.1 := fun h => hp h.symm
      simp only [dset, hp, if_false, keys, List.map_cons]
      simp only [keys] at ih
      rw [ih]
      by_cases hm : k ∈ List.map Prod.fst e <;> simp [hm, hne]

theorem nodup_keys_dset {e : JRecord} (k : String) (v : JVal)
    (h : (keys e).Nodup) : (keys (dset e k v)).Nodup := by
  rw [keys_dset]
  by_cases hm : k ∈ keys e
  · simpa [hm] using h
  · simp only [hm, if_false]
    rw [List.nodup_append]
    exact ⟨h, List.nodup_singleton k,
      by simpa [List.disjoint_singleton] using hm⟩

/-- The key list after a sequence of assignments: present keys stay in
place, new keys are appended in first-write order. -/
def keysAfter (K : List String) (ws : List (String × JVal)) : List String :=
  ws.foldl (fun K p => if p.1 ∈ K then K else K ++ [p.1]) K

theorem lastWrite_cons (p : String × JVal) (ws : List (String × JVal))
    (k : String) :
    lastWrite (p :: ws) k =
      (lastWrite ws k).or (if k = p.1 then some p.2 else none) := by
  unfold lastWrite
  rw [List.reverse_cons, dget_append]
  simp [dget]

theorem dget_wfold (e : JRecord) (ws : List (String × JVal)) (k : String) :
    dget (wfold e ws) k = (lastWrite ws k).or (dget e k) := by
  induction ws generalizing e with
  | nil => simp [wfold, lastWrite, dget]
  | cons p ws ih =>
    show dget (wfold (dset e p.1 p.2) ws) k = _
    rw [ih, dget_dset, lastWrite_cons, Option.or_assoc]
    by_cases h : k = p.1 <;> cases lastWrite ws k <;> simp [h]

theorem keys_wfold (e : JRecord) (ws : List (String × JVal)) :
    keys (wfold e ws) = keysAfter (keys e) ws := by
  induction ws generalizing e with
  | nil => rfl
  | cons p ws ih =>
    show keys (wfold (dset e p.1 p.2) ws) = keysAfter _ (p :: ws)
    rw [ih, keys_dset]
    rfl

theorem nodup_keysAfter (K : List String) (ws : List (String × JVal))
    (h : K.Nodup) : (keysAfter K ws).Nodup := by
  induction ws generalizing K with
  | nil => exact h
  | cons p ws ih =>
    apply ih
    by_cases hm : p.1 ∈ K
    · simpa [hm] using h
    · simp only [hm, if_false]
      rw [List.nodup_append]
      exact ⟨h, List.nodup_singleton _,
        by simpa [List.disjoint_singleton] using hm⟩

theorem mem_keysAfter_of_mem {K : List String} {k : String}
    (ws : List (String × JVal)) (h : k ∈ K) : k ∈ keysAfter K ws := by
  induction ws generalizing K with
  | nil => exact h
  | cons p ws ih =>
    apply ih
    by_cases hm : p.1 ∈ K <;> simp [hm, h]

theorem write_mem_keysAfter (K : List String) (ws : List (String × JVal)) :
    ∀ p ∈ ws, p.1 ∈ keysAfter K ws := by
  induction ws generalizing K with
  | nil => intro p hp; cases hp
  | cons q ws ih =>
    intro p hp
    rcases List.mem_cons.1 hp with h | h
    · subst h
      show p.1 ∈ keysAfter (if p.1 ∈ K then K else K ++ [p.1]) ws
      apply mem_keysAfter_of_mem
      by_cases hm : p.1 ∈ K
      · rw [if_pos hm]; exact hm
      · rw [if_neg hm]; exact List.mem_append_right _ (by simp)
    · exact ih _ p h

theorem keysAfter_of_writes_mem {K : List String}
    {ws : List (String × JVal)} (h : ∀ p ∈ ws, p.1 ∈ K) :
    keysAfter K ws = K := by
  induction ws with
  | nil => rfl
  | cons p ws ih =>
    have hp : p.1 ∈ K := h p (List.mem_cons_self _ _)
    show keysAfter (if p.1 ∈ K then K else K ++ [p.1]) ws = K
    rw [if_pos hp]
    exact ih (fun q hq => h q (List.mem_cons_of_mem _ hq))

theorem record_ext {e₁ e₂ : JRecord} (hk : keys e₁ = keys e₂)
    (hn : (keys e₁).Nodup) (hv : ∀ k, dget e₁ k = dget e₂ k) :
    e₁ = e₂ := by
  induction e₁ generalizing e₂ with
  | nil =>
    cases e₂ with
    | nil => rfl
    | cons q e₂ => exact absurd hk (by simp [keys])
  | cons p e₁ ih =>
    cases e₂ with
    | nil => exact absurd hk (by simp [keys])
    | cons q e₂ =>
      simp only [keys, List.map_cons, List.cons.injEq] at hk
      have hpq1 : p.1 = q.1 := hk.1
      have hval := hv p.1
      rw [show dget (p :: e₁) p.1 = some p.2 from by simp [dget],
        show dget (q :: e₂) p.1 = some q.2 from by simp [dget, hpq1]]
        at hval
      have hp2 : p.2 = q.2 := by injection hval
      have hnt : (keys e₁).Nodup := (List.nodup_cons.1 hn).2
      have hpn : p.1 ∉ keys e₁ := (List.nodup_cons.1 hn).1
      have hqn : p.1 ∉ keys e₂ := by
        unfold keys at *
        rw [← hk.2]
        exact hpn
      have htl : e₁ = e₂ := by
        apply ih hk.2 hnt
        intro k
        by_cases hkp : k = p.1
        · subst hkp
          rw [dget_eq_none_of_not_mem_keys hpn,
            dget_eq_none_of_not_mem_keys hqn]
        · have h1 := hv k
          rwa [show dget (p :: e₁) k = dget e₁ k from by simp [dget, hkp],
            show dget (q :: e₂) k = dget e₂ k from by
              simp [dget, hpq1 ▸ hkp]] at h1
      rw [htl, Prod.ext hpq1 hp2]

theorem wfold_twice (e : JRecord) (ws : List (String × JVal))
    (h : (keys e).Nodup) : wfold (wfold e ws) ws = wfold e ws := by
  apply record_ext
  · simp only [keys_wfold]
    exact keysAfter_of_writes_mem (write_mem_keysAfter (keys e) ws)
  · simp only [keys_wfold]
    exact nodup_keysAfter _ _ (nodup_keysAfter _ _ h)
  · intro k
    simp only [dget_wfold]
    cases lastWrite ws k <;> simp

theorem lastWrite_eq_none_of_not_mem {ws : List (String × JVal)}
    {k : String} (h : k ∉ keys ws) : lastWrite ws k = none := by
  unfold lastWrite
  apply dget_eq_none_of_not_mem_keys
  unfold keys at *
  rw [List.map_reverse, List.mem_reverse]
  exact h

theorem lastWrite_eq_dget {ws : List (String × JVal)}
    (h : (keys ws).Nodup) (k : String) : lastWrite ws k = dget ws k := by
  induction ws with
  | nil => rfl
  | cons p ws ih =>
    rw [lastWrite_cons]
    by_cases hk : k = p.1
    · subst hk
      have hpn : p.1 ∉ keys ws := (List.nodup_cons.1 h).1
      simp [lastWrite_eq_none_of_not_mem hpn, dget]
    · rw [ih (List.nodup_cons.1 h).2]
      simp [dget, hk]

/-- Whether a record passes the `if event_type:` guard of
`update_config.py` line 56: its `_event_type` exists and is truthy. -/
def hasTruthyType (e : JRecord) : Bool :=
  match dget e "_event_type" with
  | some t => truthy t
  | none => false

/-- Whether a record is a crop event: truthy `_event_type` equal to the
string crop. -/
def isCropRecord (e : JRecord) : Bool :=
  match dget e "_event_type" with
  | some t => truthy t && decide (t = JVal.str "crop")
  | none => false

/-- The crop name used by `input_config_list` and the merge:
`event.get('name', '')`. -/
def nameD (e : JRecord) : JVal :=
  dgetD e "name" (JVal.str "")

/-- The event loop of `input_config_list` (`update_config.py` lines
46-75), written as a recursion carrying the crop names and event types
seen so far.  Returns `(data, crop_names, other_events, data_full)` in the
order the Python loop appends them.  The final
`list(dict.fromkeys(...))` calls of lines 71-72 are identities because the
two name/type lists are built without duplicates. -/
def iclGo (seenCrops seenOthers : List JVal) :
    List JRecord → List JRecord × List JVal × List JVal × List JRecord
  | [] => ([], [], [], [])
  | e :: es =>
    match dget e "_event_type" with
    | none => iclGo seenCrops seenOthers es
    | some t =>
      if truthy t then
        if t = JVal.str "crop" then
          if nameD e ∈ seenCrops then
            let r := iclGo seenCrops seenOthers es
            (r.1, r.2.1, r.2.2.1, e :: r.2.2.2)
          else
            let r := iclGo (nameD e :: seenCrops) seenOthers es
            (e :: r.1, nameD e :: r.2.1, r.2.2.1, e :: r.2.2.2)
        else
          if t ∈ seenOthers then
            let r := iclGo seenCrops seenOthers es
            (r.1, r.2.1, r.2.2.1, e :: r.2.2.2)
          else
            let r := iclGo seenCrops (t :: seenOthers) es
            (e :: r.1, r.2.1, t :: r.2.2.1, e :: r.2.2.2)
      else iclGo seenCrops seenOthers es

/-- The Event List Extractor on an events list already resolved to a list
of records: `(data, crop_names, other_events, data_full)`. -/
def input_config_list (events : List JRecord) :
    List JRecord × List JVal × List JVal × List JRecord :=
  iclGo [] [] events

/-- The Edit Overlay (the `event_dict` argument of
`input_config_replacement`, as built by `convert_to_event_dict`): the
`crop` key maps to a list of per-crop field mappings, every other
string event type maps to a single field mapping.  An absent `crop` entry
and an empty list behave identically in the merge (both fail the Python
truthiness test of line 173), as do an absent type entry and an empty
mapping. -/
structure Overlay where
  crop : List JRecord
  others : List (String × JRecord)

/-- Lookup of a non-crop overlay entry by the record's `_event_type` value
(`event_dict.get(event_type, None)`): only string-valued types can match
the overlay's string keys. -/
def lookupOther (ov : Overlay) (t : JVal) : Option JRecord :=
  match t with
  | .str s => List.lookup s ov.others
  | _ => none

/-- Application of the crop edits to one crop record (`update_config.py`
lines 177-182): every overlay crop entry whose `name` (default the empty
string) equals the record's current `name` is applied, each of its keys
assigned in order. -/
def applyCrops (cfgs : List JRecord) (e : JRecord) : JRecord :=
  cfgs.foldl
    (fun acc cfg =>
      if nameD acc = nameD cfg then wfold acc cfg else acc)
    e

/-- Merge of the Edit Overlay into one event record (`update_config.py`
lines 166-186): a record with an absent or falsy `_event_type`, or one
whose type has no (truthy) overlay entry, is left alone; a crop record
receives the matching crop entries; any other record receives all keys of
its type's single mapping. -/
def mergeEvent (ov : Overlay) (e : JRecord) : JRecord :=
  match dget e "_event_type" with
  | none => e
  | some t =>
    if truthy t then
      if t = JVal.str "crop" then applyCrops ov.crop e
      else
        match lookupOther ov t with
        | some cfg => wfold e cfg
        | none => e
    else e

/-- The event merge over the whole events list
(`input_config_replacement`): each record of the resolved events list is
updated in place, so the output events list is the elementwise merge. -/
def input_config_replacement (ov : Overlay) (events : List JRecord) :
    List JRecord :=
  events.map (mergeEvent ov)

/-- Soil merge (`soil_config_replacement` lines 233-235, applied to the
resolved soil record): for each key of the soil record, in place,
overwrite its value with the overlay's value when the overlay has that
key.  Keys only in the overlay are never added. -/
def soil_config_replacement (soil_dict : JRecord) (soil : JRecord) :
    JRecord :=
  soil.map (fun p =>
    match dget soil_dict p.1 with
    | some v => (p.1, v)
    | none => p)

/-- One generated auto-fertilization event (`update_config.py` lines
311-320) for a year `y ≥ 0`: the f-string date pair
`{year}-01-01` / `{year}-12-30` split on the dash and re-parsed as
integers. -/
def autoFertEvent (y : ℤ) : JRecord :=
  [("_event_type", JVal.str "alt_fertilizer"),
   ("method", JVal.str "auto-fertilizer"),
   ("start_date", JVal.obj
     [("year", JVal.int y), ("month", JVal.int 1), ("day", JVal.int 1)]),
   ("end_date", JVal.obj
     [("year", JVal.int y), ("month", JVal.int 12), ("day", JVal.int 30)])]

/-- The Python `range(first_year, last_year + 1)`. -/
def yearRange (first last : ℤ) : List ℤ :=
  (List.range (last + 1 - first).toNat).map (fun i : ℕ => first + (i : ℤ))

/-- The Auto-Fertilization Generator (`generate_autofertilization_event`),
at the level of the resolved events list.  For a negative year the date
string `{year}-01-01` contains a leading minus sign, so `split("-")`
yields four parts and the three-way tuple unpacking of line 313 raises
`ValueError`; the function then raises instead of returning, which is
modelled as `none`.  The failure occurs exactly when the range is
nonempty and starts below zero. -/
def generate_autofertilization_event (events : List JRecord)
    (first last : ℤ) : Option (List JRecord) :=
  if first ≤ last ∧ first < 0 then none
  else some (events ++ (yearRange first last).map autoFertEvent)

/-- The four crop fraction fields of `display_widgets`
(`update_config.py` line 418), with Python floats modelled as exact
rationals. -/
structure CropFracs where
  frac_grain : ℚ
  frac_leaf : ℚ
  frac_root : ℚ
  frac_stem : ℚ
deriving DecidableEq

/-- The keys `frac_grain`, `frac_leaf`, `frac_root`, `frac_stem`, in the
order of the `frac_keys` list. -/
inductive FracKey where
  | grain
  | leaf
  | root
  | stem
deriving DecidableEq

def CropFracs.get (f : CropFracs) : FracKey → ℚ
  | .grain => f.frac_grain
  | .leaf => f.frac_leaf
  | .root => f.frac_root
  | .stem => f.frac_stem

def CropFracs.set (f : CropFracs) : FracKey → ℚ → CropFracs
  | .grain, v => { f with frac_grain := v }
  | .leaf, v => { f with frac_leaf := v }
  | .root, v => { f with frac_root := v }
  | .stem, v => { f with frac_stem := v }

/-- The running total `sum(fracs.values())`. -/
def CropFracs.total (f : CropFracs) : ℚ :=
  f.frac_grain + f.frac_leaf + f.frac_root + f.frac_stem

/-- Initial renormalization of the fractions (`update_config.py` lines
420-425): when the total is not exactly 1, each fraction is divided by the
total before the sliders are shown; otherwise the fractions are presented
unchanged. -/
def rescaleFracs (f : CropFracs) : CropFracs :=
  if f.total = 1 then f
  else
    ⟨f.frac_grain / f.total, f.frac_leaf / f.total,
     f.frac_root / f.total, f.frac_stem / f.total⟩

/-- Decrement every fraction other than `k` by `d` (the inner loop of
lines 432-434 with `d = delta / 3`). -/
def decOthers (f : CropFracs) (k : FracKey) (d : ℚ) : CropFracs :=
  match k with
  | .grain => { f with frac_leaf := f.frac_leaf - d,
                       frac_root := f.frac_root - d,
                       frac_stem := f.frac_stem - d }
  | .leaf => { f with frac_grain := f.frac_grain - d,
                      frac_root := f.frac_root - d,
                      frac_stem := f.frac_stem - d }
  | .root => { f with frac_grain := f.frac_grain - d,
                      frac_leaf := f.frac_leaf - d,
                      frac_stem := f.frac_stem - d }
  | .stem => { f with frac_grain := f.frac_grain - d,
                      frac_leaf := f.frac_leaf - d,
                      frac_root := f.frac_root - d }

/-- One slider adjustment (`update_config.py` lines 429-435): the slider
for `k` returns `newValue`; `delta = newValue - fracs[k]`; when the delta
is nonzero the other three fractions are each decremented by `delta / 3`;
finally `fracs[k] = newValue`. -/
def sliderStep (f : CropFracs) (k : FracKey) (newValue : ℚ) : CropFracs :=
  let delta := newValue - f.get k
  let f1 := if delta ≠ 0 then decOthers f k (delta / 3) else f
  f1.set k newValue

/-- The full pass over the four sliders in the order of `frac_keys`
(lines 428-435), with `s` giving each slider's returned value. -/
def sliderLoop (f : CropFracs) (s : FracKey → ℚ) : CropFracs :=
  sliderStep
    (sliderStep
      (sliderStep (sliderStep f .grain (s .grain)) .leaf (s .leaf))
      .root (s .root))
    .stem (s .stem)

/-- Gregorian leap-year test. -/
def isLeap (y : ℕ) : Bool :=
  (y % 4 == 0 && y % 100 != 0) || y % 400 == 0

/-- Length of year `y` in days. -/
def daysInYear (y : ℕ) : ℕ :=
  if isLeap y then 366 else 365

/-- Number of days of the proleptic Gregorian calendar strictly before
January 1 of year `y` (meaningful for `y ≥ 1`); the ordinal of a calendar
date is `daysBeforeYear y` plus its day of year, so dates compare by
their ordinals. -/
def daysBeforeYear (y : ℕ) : ℕ :=
  365 * (y - 1) + (y - 1) / 4 + (y - 1) / 400 - (y - 1) / 100

/-- The ordinal of day-of-year `d` of year `y`, i.e. the date
`date(y, 1, 1) + (d - 1) days`. -/
def toOrdinal (y d : ℕ) : ℕ :=
  daysBeforeYear y + d

/-- Decimal digit count of `str(n)` for a natural number (`str(0)` has one
digit). -/
def numDigits (n : ℕ) : ℕ :=
  Nat.log 10 n + 1

/-- The first full day representable by a pandas `datetime64[ns]`,
1677-09-22 (day 265 of the common year 1677). -/
def nsMinOrdinal : ℕ :=
  toOrdinal 1677 265

/-- The last full day representable by a pandas `datetime64[ns]`,
2262-04-11 (day 101 of the common year 2262). -/
def nsMaxOrdinal : ℕ :=
  toOrdinal 2262 101

/-- The number matched by `%Y`: the first four digit characters of
`str(Year) + str(Day)` — the top four digits of the year when it has at
least four, otherwise all year digits followed by the leading digits of
the day string. -/
def yrYJ (year day : ℤ) : ℕ :=
  if 4 ≤ numDigits year.toNat then
    year.toNat / 10 ^ (numDigits year.toNat - 4)
  else
    year.toNat * 10 ^ (4 - numDigits year.toNat) +
      day.toNat / 10 ^ (numDigits day.toNat - (4 - numDigits year.toNat))

/-- The number matched by `%j`: the value of the remaining digit
characters after `%Y` consumed four. -/
def restYJ (year day : ℤ) : ℕ :=
  if 4 ≤ numDigits year.toNat then
    (year.toNat % 10 ^ (numDigits year.toNat - 4)) *
      10 ^ numDigits day.toNat + day.toNat
  else
    day.toNat % 10 ^ (numDigits day.toNat - (4 - numDigits year.toNat))

/-- Reconstruction of the `Date` cell for one row (`dndc_dashboard.py`
line 48): `pd.to_datetime(str(Year) + str(Day), format='%Y%j')` on the
concatenation of the two decimal strings.  `%Y` consumes exactly four
digit characters, `%j` one to three, and the whole string must be
consumed, so the parse fails unless the combined digit count is five to
seven (a negative number contributes a minus sign, which matches no
digit).  The `%j` alternation only matches the values 1-366; the
resulting date is `date(year, 1, 1) + (j - 1) days` (CPython strptime
semantics, which roll day 366 of a common year into the next January 1);
finally the conversion of the column to `datetime64[ns]` raises outside
the nanosecond-representable day range. -/
def parseYJ (year day : ℤ) : Option ℕ :=
  if year < 0 ∨ day < 0 then none
  else if numDigits year.toNat + numDigits day.toNat < 5 ∨
      7 < numDigits year.toNat + numDigits day.toNat then none
  else if restYJ year day < 1 ∨ 366 < restYJ year day then none
  else if toOrdinal (yrYJ year day) (restYJ year day) < nsMinOrdinal ∨
      nsMaxOrdinal < toOrdinal (yrYJ year day) (restYJ year day) then none
  else some (toOrdinal (yrYJ year day) (restYJ year day))

/-- A row of a dashboard Table, keeping the `Year` and `Day` columns the
date logic reads; `rest` carries the row's remaining cells. -/
structure TRow (α : Type) where
  year : ℤ
  day : ℤ
  rest : α
deriving DecidableEq

/-- Default lower bound `pd.Timestamp('1900-01-01')` of
`return_output_df`. -/
def defaultMinDate : ℕ :=
  toOrdinal 1900 1

/-- Default upper bound `pd.Timestamp('3000-01-01')`. -/
def defaultMaxDate : ℕ :=
  toOrdinal 3000 1

/-- The derived `Date` column: each row paired with its reconstructed
date ordinal.  `pd.to_datetime` works on the whole column, so one failing
row fails the whole computation. -/
def mapDates {α : Type} : List (TRow α) → Option (List (TRow α × ℕ))
  | [] => some []
  | r :: rs =>
    match parseYJ r.year r.day, mapDates rs with
    | some d0, some rest => some ((r, d0) :: rest)
    | _, _ => none

/-- The Date Reconstructor `return_output_df` (`dndc_dashboard.py` lines
38-51): derive the `Date` column for every row (the whole call raises if
any row fails to parse, since `pd.to_datetime` acts on the whole column),
then keep exactly the rows whose date lies in the inclusive
`[min_date, max_date]` range.  The `if min_date and max_date:` guard is
always taken because Timestamps are truthy. -/
def return_output_df {α : Type} (df : List (TRow α))
    (min_date max_date : Option ℕ) : Option (List (TRow α × ℕ)) :=
  let lo := min_date.getD defaultMinDate
  let hi := max_date.getD defaultMaxDate
  (mapDates df).map
    (fun rows => rows.filter (fun p => decide (lo ≤ p.2 ∧ p.2 ≤ hi)))

/-- Python `x[0]` in the events-path navigation: only a nonempty array
yields a usable element (indexing a nonempty string yields a
one-character string on which the following key lookup raises, and every
other case raises immediately). -/
def idx0 : JVal → Option JVal
  | .arr (h :: _) => some h
  | _ => none

/-- Python `x[key]` for a string key: only an object with that key
succeeds. -/
def oget (s : String) : JVal → Option JVal
  | .obj l => dget l s
  | _ => none

/-- The unwrapped events path
`json_data["sites"][0]["fields"][0]["rotations"][0]["events"]`. -/
def navUnwrapped (v : JVal) : Option JVal :=
  ((((((oget "sites" v).bind idx0).bind (oget "fields")).bind idx0).bind
      (oget "rotations")).bind idx0).bind (oget "events")

/-- The wrapped events path `json_data[0]["sites"][0]...`. -/
def navWrapped (v : JVal) : Option JVal :=
  (idx0 v).bind navUnwrapped

/-- The try/except of `input_config_list` lines 40-43: the wrapped path is
attempted inside the `try`; any exception falls back to the unwrapped
path, whose own failure propagates out of the function. -/
def navEvents (v : JVal) : Option JVal :=
  match navWrapped v with
  | some e => some e
  | none => navUnwrapped v

/-- A value usable as an event record by the extraction loop: a dict. -/
def asRecord : JVal → Option JRecord
  | .obj l => some l
  | _ => none

/-- The Event List Extractor on the uploaded JSON value
(`input_config_list` as a whole): resolve the events path, then run the
event loop over the resolved value.  Iterating a non-list raises (so the
call fails) except that the empty mapping and the empty string iterate
zero times and produce empty results; a list containing a non-dict
raises at `event.get`; keys of a nonempty mapping and characters of a
nonempty string are strings, which also raise at `event.get`. -/
def input_config_list_v (v : JVal) :
    Option (List JRecord × List JVal × List JVal × List JRecord) :=
  match navEvents v with
  | none => none
  | some (.arr l) => (l.mapM asRecord).map input_config_list
  | some (.obj l) => if l = [] then some ([], [], [], []) else none
  | some (.str s) => if s = "" then some ([], [], [], []) else none
  | some _ => none

theorem iclGo_data_full (sc so : List JVal) (events : List JRecord) :
    (iclGo sc so events).2.2.2 = events.filter hasTruthyType := by
  induction events generalizing sc so with
  | nil => rfl
  | cons e es ih =>
    cases h : dget e "_event_type" with
    | none => simp [iclGo, h, ih, List.filter_cons, hasTruthyType]
    | some t =>
      by_cases hc : t = JVal.str "crop"
      · subst hc
        have ht : truthy (JVal.str "crop") = true := rfl
        by_cases hn : nameD e ∈ sc <;>
          simp [iclGo, h, ht, hn, ih, List.filter_cons, hasTruthyType]
      · by_cases ht : truthy t
        · by_cases hs : t ∈ so <;>
            simp [iclGo, h, ht, hc, hs, ih, List.filter_cons, hasTruthyType]
        · simp [iclGo, h, ht, ih, List.filter_cons, hasTruthyType]

/-- C5: for a configuration document whose event records all carry a
truthy `_event_type` tag (the data model's well-formedness of Event
Records), the fourth component returned by the Event List Extractor is
the unfiltered source events list, every record included in source order,
duplicates and all.  (A record with a missing or falsy `_event_type`
would be dropped even from this list by the `if event_type:` guard.) -/
theorem C5_full_event_list (events : List JRecord)
    (h : ∀ e ∈ events, hasTruthyType e = true) :
    (input_config_list events).2.2.2 = events := by
  rw [input_config_list, iclGo_data_full]
  exact List.filter_eq_self.2 h

/-- Concrete events for the C5 witness: two crop records sharing a name
and two records sharing a type, so the full list keeps duplicates. -/
def evC5 : List JRecord :=
  [[("_event_type", JVal.str "crop"), ("name", JVal.str "A")],
   [("_event_type", JVal.str "autoirrigation"), ("depth", JVal.int 0)],
   [("_event_type", JVal.str "crop"), ("name", JVal.str "A")],
   [("_event_type", JVal.str "autoirrigation"), ("depth", JVal.int 2)]]

/-- Witness for C5 at a concrete list with duplicate names and types. -/
theorem C5_full_event_list_witness :
    (∀ e ∈ evC5, hasTruthyType e = true) ∧
    (input_config_list evC5).2.2.2 = evC5 :=
  ⟨by decide, C5_full_event_list evC5 (by decide)⟩

/-- C9: the soil merge keeps the soil record's key list unchanged (so
overlay-only keys are never added), overwrites exactly the keys the
overlay also has with the overlay's values, and keeps every other value.
The second conjunct reads: a key absent from the soil record stays
absent; a key present in both takes the overlay value; a key present
only in the soil record keeps its value. -/
theorem C9_soil_merge (sd soil : JRecord) :
    keys (soil_config_replacement sd soil) = keys soil ∧
    ∀ k, dget (soil_config_replacement sd soil) k =
      (dget soil k).map (fun v => (dget sd k).getD v) := by
  constructor
  · unfold soil_config_replacement keys
    rw [List.map_map]
    apply List.map_congr_left
    intro p hp
    cases h : dget sd p.1 <;> simp [h]
  · intro k
    induction soil with
    | nil => rfl
    | cons p soil ih =>
      simp only [soil_config_replacement, List.map_cons] at ih ⊢
      cases h : dget sd p.1 with
      | some v =>
        by_cases hk : k = p.1
        · subst hk; simp [dget, h]
        · simpa [dget, hk] using ih
      | none =>
        by_cases hk : k = p.1
        · subst hk; simp [dget, h]
        · simpa [dget, hk] using ih

/-- C10: the Widget Dispatcher's initial renormalization.  When the four
fractions have a nonzero total the rescaled fractions sum to exactly 1,
and when the total is already exactly 1 the record is presented
unchanged. -/
theorem C10_fraction_rescale (f : CropFracs) (h : f.total ≠ 0) :
    (rescaleFracs f).total = 1 ∧ (f.total = 1 → rescaleFracs f = f) := by
  refine ⟨?_, fun h1 => by simp [rescaleFracs, h1]⟩
  by_cases h1 : f.total = 1
  · simp [rescaleFracs, h1]
  · simp only [rescaleFracs, h1, if_false]
    show f.frac_grain / f.total + f.frac_leaf / f.total +
        f.frac_root / f.total + f.frac_stem / f.total = 1
    rw [div_add_div_same, div_add_div_same, div_add_div_same]
    exact div_self h

/-- Witness for C10 at fractions summing to 4. -/
theorem C10_fraction_rescale_witness :
    CropFracs.total ⟨1, 1, 1, 1⟩ ≠ 0 ∧
    (rescaleFracs ⟨1, 1, 1, 1⟩).total = 1 :=
  ⟨by norm_num [CropFracs.total],
   (C10_fraction_rescale ⟨1, 1, 1, 1⟩ (by norm_num [CropFracs.total])).1⟩

/-- C8: a single slider adjustment.  If the four fractions sum to 1, then
after the slider for `k` reports any new value (changing that fraction by
`delta` and decrementing each of the other three by `delta / 3`), the
four fractions again sum to exactly 1 — with rationals standing in for
floats, the tolerance is zero. -/
theorem C8_slider_sum (f : CropFracs) (k : FracKey) (v : ℚ)
    (h : f.total = 1) : (sliderStep f k v).total = 1 := by
  unfold CropFracs.total at h
  cases k <;>
    · simp only [sliderStep, CropFracs.get, CropFracs.set, decOthers,
        CropFracs.total]
      split
      · linarith
      · rename_i hz
        simp only [ne_eq, not_not, sub_eq_zero] at hz
        linarith

/-- Witness for C8: an even split with the grain slider moved to 1/2. -/
theorem C8_slider_sum_witness :
    CropFracs.total ⟨1/4, 1/4, 1/4, 1/4⟩ = 1 ∧
    (sliderStep ⟨1/4, 1/4, 1/4, 1/4⟩ .grain (1/2)).total = 1 :=
  ⟨by norm_num [CropFracs.total],
   C8_slider_sum ⟨1/4, 1/4, 1/4, 1/4⟩ .grain (1/2)
     (by norm_num [CropFracs.total])⟩

/-- C3 (amended): provided `first_year ≥ 0` (or the degenerate
`first_year > last_year`, which appends nothing), the Auto-Fertilization
Generator appends exactly one event per year of `[first_year, last_year]`
to the end of the events list — `last_year - first_year + 1` of them when
the range is nonempty, zero otherwise — in increasing year order, leaving
every pre-existing event in place, each appended event carrying type
`alt_fertilizer`, method `auto-fertilizer`, start date `{year}-01-01` and
end date `{year}-12-30`.  For a negative `first_year ≤ last_year` the
generator instead raises (see the counterexample), which is why the claim
needs the sign restriction. -/
theorem C3_autofert_append (events : List JRecord) (first last : ℤ)
    (h : 0 ≤ first ∨ last < first) :
    generate_autofertilization_event events first last =
      some (events ++ (yearRange first last).map autoFertEvent) ∧
    (yearRange first last).length =
      (if first ≤ last then (last - first + 1).toNat else 0) ∧
    (∀ i (hi : i < (yearRange first last).length),
      (yearRange first last).get ⟨i, hi⟩ = first + i) ∧
    (∀ y : ℤ,
      dget (autoFertEvent y) "_event_type" =
        some (JVal.str "alt_fertilizer") ∧
      dget (autoFertEvent y) "method" = some (JVal.str "auto-fertilizer") ∧
      dget (autoFertEvent y) "start_date" = some (JVal.obj
        [("year", JVal.int y), ("month", JVal.int 1),
         ("day", JVal.int 1)]) ∧
      dget (autoFertEvent y) "end_date" = some (JVal.obj
        [("year", JVal.int y), ("month", JVal.int 12),
         ("day", JVal.int 30)])) := by
  refine ⟨?_, ?_, ?_, ?_⟩
  · have hg : ¬ (first ≤ last ∧ first < 0) := by
      rcases h with h | h <;> omega
    simp [generate_autofertilization_event, hg]
  · rw [yearRange, List.length_map, List.length_range]
    split <;> omega
  · intro i hi
    simp only [yearRange, List.get_eq_getElem, List.getElem_map,
      List.getElem_range]
  · intro y
    refine ⟨rfl, rfl, rfl, rfl⟩

/-- Counterexample for C3 as stated over all integer year bounds: with
`first_year = last_year = -1` the claim demands exactly one appended
event for year -1, but the generator raises a `ValueError` while
unpacking `"-1-01-01".split("-")` (four parts) and returns nothing. -/
theorem C3_autofert_counterexample :
    generate_autofertilization_event [] (-1) (-1) = none ∧
    generate_autofertilization_event [] (-1) (-1) ≠
      some [autoFertEvent (-1)] := by
  refine ⟨rfl, ?_⟩
  intro hc
  exact Option.noConfusion (rfl.trans hc)

/-- Witness for C3 at the spec's example `first_year = 2001`,
`last_year = 2003`: exactly the three events 2001/2002/2003 are
appended. -/
theorem C3_autofert_append_witness :
    ((0 : ℤ) ≤ 2001 ∨ (2003 : ℤ) < 2001) ∧
    generate_autofertilization_event [] 2001 2003 =
      some [autoFertEvent 2001, autoFertEvent 2002, autoFertEvent 2003] := by
  refine ⟨Or.inl (by norm_num), ?_⟩
  rw [(C3_autofert_append [] 2001 2003 (Or.inl (by norm_num))).1]
  decide

theorem lookup_mem_pair {s : String} {l : List (String × JRecord)}
    {c : JRecord} (h : List.lookup s l = some c) : (s, c) ∈ l := by
  induction l with
  | nil => cases h
  | cons p l ih =>
    cases p with
    | mk k b =>
      by_cases hk : (s == k) = true
      · have hsk : s = k := by simpa using hk
        have hb : b = c := by
          have h2 := h
          simp only [List.lookup, hk] at h2
          simpa using h2
        subst hsk
        subst hb
        exact List.mem_cons_self _ _
      · have hkf : (s == k) = false := by simpa using hk
        have h2 : List.lookup s l = some c := by
          have h3 := h
          simp only [List.lookup, hkf] at h3
          exact h3
        exact List.mem_cons_of_mem _ (ih h2)

theorem wfold_append (e : JRecord) (ws₁ ws₂ : List (String × JVal)) :
    wfold e (ws₁ ++ ws₂) = wfold (wfold e ws₁) ws₂ := by
  unfold wfold
  exact List.foldl_append _ _ _ _

theorem dget_wfold_nodup {cfg : JRecord} (e : JRecord)
    (hc : (keys cfg).Nodup) (k : String) :
    dget (wfold e cfg) k =
      if (dget cfg k).isSome then dget cfg k else dget e k := by
  rw [dget_wfold, lastWrite_eq_dget hc]
  cases h : dget cfg k <;> simp [h]

theorem nameD_wfold_match {acc cfg : JRecord} (hc : (keys cfg).Nodup)
    (hm : nameD acc = nameD cfg) : nameD (wfold acc cfg) = nameD acc := by
  unfold nameD dgetD at *
  rw [dget_wfold, lastWrite_eq_dget hc]
  cases h : dget cfg "name" with
  | none => simp
  | some v =>
    rw [h] at hm
    simp only [Option.getD_some] at hm
    simp [hm]

/-- The write sequence a crop record named `n` receives from the crop
entries: the concatenated bindings of every entry whose name equals
`n`. -/
def matchedWrites (cfgs : List JRecord) (n : JVal) : List (String × JVal) :=
  (cfgs.filter (fun cfg => decide (n = nameD cfg))).flatten

theorem not_mem_keys_matchedWrites {cfgs : List JRecord} {k : String}
    (h : ∀ cfg ∈ cfgs, k ∉ keys cfg) (n : JVal) :
    k ∉ keys (matchedWrites cfgs n) := by
  unfold matchedWrites keys
  intro hmem
  rw [List.mem_map] at hmem
  obtain ⟨p, hp, hpk⟩ := hmem
  rw [List.mem_flatten] at hp
  obtain ⟨l, hl, hpl⟩ := hp
  exact h l (List.mem_of_mem_filter hl)
    (hpk ▸ List.mem_map_of_mem Prod.fst hpl)

theorem applyCrops_eq_wfold (cfgs : List JRecord) (e : JRecord)
    (hc : ∀ cfg ∈ cfgs, (keys cfg).Nodup) :
    applyCrops cfgs e = wfold e (matchedWrites cfgs (nameD e)) ∧
    nameD (applyCrops cfgs e) = nameD e := by
  induction cfgs generalizing e with
  | nil => exact ⟨rfl, rfl⟩
  | cons c cs ih =>
    have hcc : (keys c).Nodup := hc c (List.mem_cons_self _ _)
    have hcs : ∀ cfg ∈ cs, (keys cfg).Nodup :=
      fun cfg hm => hc cfg (List.mem_cons_of_mem _ hm)
    by_cases hm : nameD e = nameD c
    · have hname : nameD (wfold e c) = nameD e := nameD_wfold_match hcc hm
      have step : applyCrops (c :: cs) e = applyCrops cs (wfold e c) := by
        simp [applyCrops, hm]
      have ihh := ih (wfold e c) hcs
      refine ⟨?_, ?_⟩
      · rw [step, ihh.1, hname,
          show matchedWrites (c :: cs) (nameD e) =
            c ++ matchedWrites cs (nameD e) from by
              simp [matchedWrites, List.filter_cons, hm]]
        rw [wfold_append]
      · rw [step, ihh.2, hname]
    · have step : applyCrops (c :: cs) e = applyCrops cs e := by
        simp [applyCrops, hm]
      have ihh := ih e hcs
      refine ⟨?_, ?_⟩
      · rw [step, ihh.1,
          show matchedWrites (c :: cs) (nameD e) =
            matchedWrites cs (nameD e) from by
              simp [matchedWrites, List.filter_cons, hm]]
      · rw [step, ihh.2]

theorem filter_name_eq_single {cfgs : List JRecord} {cfg : JRecord}
    (hnames : (cfgs.map nameD).Nodup) (hmem : cfg ∈ cfgs) {n : JVal}
    (hn : nameD cfg = n) :
    cfgs.filter (fun c => decide (n = nameD c)) = [cfg] := by
  induction cfgs with
  | nil => cases hmem
  | cons c cs ih =>
    rcases List.mem_cons.1 hmem with h | h
    · subst h
      have htail : ∀ c' ∈ cs, ¬ (n = nameD c') := by
        intro c' hc' he
        exact (List.nodup_cons.1 (by simpa using hnames)).1
          (hn ▸ he ▸ List.mem_map_of_mem nameD hc')
      rw [List.filter_cons, if_pos (by simp [hn])]
      have : cs.filter (fun c => decide (n = nameD c)) = [] := by
        rw [List.filter_eq_nil_iff]
        intro c' hc'
        simpa using htail c' hc'
      rw [this]
    · have hch : ¬ (n = nameD c) := by
        intro he
        exact (List.nodup_cons.1 (by simpa using hnames)).1
          (he ▸ hn ▸ List.mem_map_of_mem nameD h)
      rw [List.filter_cons, if_neg (by simpa using hch)]
      exact ih (by simpa using (List.nodup_cons.1 (by simpa using hnames)).2) h

theorem mergeEvent_idem (ov : Overlay) (e : JRecord)
    (hET : ∀ cfg ∈ ov.crop, "_event_type" ∉ keys cfg)
    (hETo : ∀ p ∈ ov.others, "_event_type" ∉ keys p.2)
    (hccfg : ∀ cfg ∈ ov.crop, (keys cfg).Nodup)
    (he : (keys e).Nodup) :
    mergeEvent ov (mergeEvent ov e) = mergeEvent ov e := by
  cases ht : dget e "_event_type" with
  | none =>
    have h1 : mergeEvent ov e = e := by
      unfold mergeEvent
      rw [ht]
    rw [h1, h1]
  | some t =>
    by_cases htr : truthy t = true
    · by_cases hcrop : t = JVal.str "crop"
      · subst hcrop
        obtain ⟨heq, hname⟩ := applyCrops_eq_wfold ov.crop e hccfg
        have hWet : "_event_type" ∉ keys (matchedWrites ov.crop (nameD e)) :=
          not_mem_keys_matchedWrites hET _
        have h1 : mergeEvent ov e = applyCrops ov.crop e := by
          unfold mergeEvent
          rw [ht]
          simp [htr]
        have hety : dget (applyCrops ov.crop e) "_event_type" =
            some (JVal.str "crop") := by
          rw [heq, dget_wfold, lastWrite_eq_none_of_not_mem hWet, ht]
          rfl
        have h2 : mergeEvent ov (applyCrops ov.crop e) =
            applyCrops ov.crop (applyCrops ov.crop e) := by
          unfold mergeEvent
          rw [hety]
          simp [htr]
        rw [h1, h2]
        obtain ⟨heq2, -⟩ :=
          applyCrops_eq_wfold ov.crop (applyCrops ov.crop e) hccfg
        rw [heq2, hname, heq]
        exact wfold_twice e _ he
      · cases hlu : lookupOther ov t with
        | none =>
          have h1 : mergeEvent ov e = e := by
            unfold mergeEvent
            rw [ht]
            simp [htr, hcrop, hlu]
          rw [h1, h1]
        | some cfg =>
          cases t with
          | int n => simp [lookupOther] at hlu
          | rat q => simp [lookupOther] at hlu
          | bool b => simp [lookupOther] at hlu
          | arr l => simp [lookupOther] at hlu
          | obj l => simp [lookupOther] at hlu
          | str s =>
            have hcfgE : "_event_type" ∉ keys cfg :=
              hETo (s, cfg) (lookup_mem_pair hlu)
            have h1 : mergeEvent ov e = wfold e cfg := by
              unfold mergeEvent
              rw [ht]
              simp [htr, hcrop, hlu]
            have hety : dget (wfold e cfg) "_event_type" =
                some (JVal.str s) := by
              rw [dget_wfold, lastWrite_eq_none_of_not_mem hcfgE, ht]
              rfl
            have h2 : mergeEvent ov (wfold e cfg) =
                wfold (wfold e cfg) cfg := by
              unfold mergeEvent
              rw [hety]
              simp [htr, hcrop, hlu]
            rw [h1, h2]
            exact wfold_twice e cfg he
    · have h1 : mergeEvent ov e = e := by
        unfold mergeEvent
        rw [ht]
        simp [htr]
      rw [h1, h1]

/-- C7: the event merge is idempotent.  The hypotheses state the Edit
Overlay's well-formedness per the data model: the overlay is built by
`convert_to_event_dict`, which pops `_event_type` from every entry (so no
entry can retype a record on the first pass and trigger a different
branch on the second), and entries and event records are Python dicts
(distinct keys).  Under these, merging an already-merged events list
changes nothing. -/
theorem C7_merge_idempotent (ov : Overlay) (events : List JRecord)
    (hET : ∀ cfg ∈ ov.crop, "_event_type" ∉ keys cfg)
    (hETo : ∀ p ∈ ov.others, "_event_type" ∉ keys p.2)
    (hccfg : ∀ cfg ∈ ov.crop, (keys cfg).Nodup)
    (hrec : ∀ e ∈ events, (keys e).Nodup) :
    input_config_replacement ov (input_config_replacement ov events) =
      input_config_replacement ov events := by
  unfold input_config_replacement
  rw [List.map_map]
  apply List.map_congr_left
  intro e he
  exact mergeEvent_idem ov e hET hETo hccfg (hrec e he)

/-- Concrete overlay for the C7 witness: one crop edit and one
autoirrigation edit that also adds a new `depth` key. -/
def ovC7 : Overlay :=
  ⟨[[("name", JVal.str "A"), ("tdd", JVal.int 4000)]],
   [("autoirrigation",
     [("method", JVal.str "furrow"), ("depth", JVal.int 3)])]⟩

/-- Concrete events for the C7 witness. -/
def evC7 : List JRecord :=
  [[("_event_type", JVal.str "crop"), ("name", JVal.str "A"),
    ("tdd", JVal.int 1200)],
   [("_event_type", JVal.str "autoirrigation"),
    ("method", JVal.str "drip")]]

/-- Witness for C7 at a concrete overlay and events list. -/
theorem C7_merge_idempotent_witness :
    input_config_replacement ovC7 (input_config_replacement ovC7 evC7) =
      input_config_replacement ovC7 evC7 :=
  C7_merge_idempotent ovC7 evC7 (by decide) (by decide) (by decide)
    (by decide)

/-- C1: the event merge updates each record selectively.  The hypotheses
state the Edit Overlay's well-formedness per the data model: non-crop
keys are genuine event types (nonempty and distinct from the crop key),
the crop entries are keyed by pairwise distinct names, and entries are
Python dicts (distinct keys).  Conjuncts: the merge is the elementwise
record update; (i) a record whose `_event_type` has no entry in the
Overlay — including records with an absent or falsy type — keeps all its
fields; (ii) a crop record is unchanged when no crop entry's name
matches, and when an entry's name matches, exactly the keys present in
that entry are overwritten with its values while every other key keeps
its value; (iii) a non-crop record whose type has an entry has exactly
that mapping's keys overwritten and all other keys unchanged. -/
theorem C1_merge_selective (ov : Overlay) (events : List JRecord)
    (hks : ∀ p ∈ ov.others, p.1 ≠ "" ∧ p.1 ≠ "crop")
    (hnames : (ov.crop.map nameD).Nodup)
    (hccfg : ∀ cfg ∈ ov.crop, (keys cfg).Nodup)
    (hocfg : ∀ p ∈ ov.others, (keys p.2).Nodup) :
    input_config_replacement ov events = events.map (mergeEvent ov) ∧
    ∀ e : JRecord,
      ((∀ t, dget e "_event_type" = some t →
          (t = JVal.str "crop" → ov.crop = []) ∧
          (t ≠ JVal.str "crop" → lookupOther ov t = none)) →
        mergeEvent ov e = e) ∧
      (dget e "_event_type" = some (JVal.str "crop") →
        ((∀ cfg ∈ ov.crop, nameD cfg ≠ nameD e) → mergeEvent ov e = e) ∧
        (∀ cfg ∈ ov.crop, nameD cfg = nameD e →
          ∀ k, dget (mergeEvent ov e) k =
            if (dget cfg k).isSome then dget cfg k else dget e k)) ∧
      (∀ t cfg, dget e "_event_type" = some t →
        lookupOther ov t = some cfg →
        ∀ k, dget (mergeEvent ov e) k =
          if (dget cfg k).isSome then dget cfg k else dget e k) := by
  refine ⟨rfl, fun e => ⟨?_, ?_, ?_⟩⟩
  · intro hno
    cases ht : dget e "_event_type" with
    | none =>
      unfold mergeEvent
      rw [ht]
    | some t =>
      obtain ⟨h1, h2⟩ := hno t ht
      unfold mergeEvent
      rw [ht]
      by_cases htr : truthy t = true
      · by_cases hcrop : t = JVal.str "crop"
        · subst hcrop
          rw [h1 rfl]
          simp [htr, applyCrops]
        · simp [htr, hcrop, h2 hcrop]
      · simp [htr]
  · intro ht
    have hme : mergeEvent ov e = applyCrops ov.crop e := by
      unfold mergeEvent
      rw [ht]
      rfl
    constructor
    · intro hnom
      rw [hme, (applyCrops_eq_wfold ov.crop e hccfg).1,
        show matchedWrites ov.crop (nameD e) = [] from by
          unfold matchedWrites
          rw [List.filter_eq_nil_iff.2
            (fun cfg hm => by simpa using fun hh => hnom cfg hm hh.symm)]
          rfl]
      rfl
    · intro cfg hmem hnm k
      rw [hme, (applyCrops_eq_wfold ov.crop e hccfg).1,
        show matchedWrites ov.crop (nameD e) = cfg from by
          unfold matchedWrites
          rw [filter_name_eq_single hnames hmem hnm]
          simp]
      exact dget_wfold_nodup e (hccfg cfg hmem) k
  · intro t cfg ht hlu k
    cases t with
    | int n => simp [lookupOther] at hlu
    | rat q => simp [lookupOther] at hlu
    | bool b => simp [lookupOther] at hlu
    | arr l => simp [lookupOther] at hlu
    | obj l => simp [lookupOther] at hlu
    | str s =>
      obtain ⟨hne, hnc⟩ := hks (s, cfg) (lookup_mem_pair hlu)
      have htr : truthy (JVal.str s) = true := by
        simp only [truthy, Bool.not_eq_true']
        cases hse : s.isEmpty
        · rfl
        · exact absurd ((String.isEmpty_iff s).1 hse) hne
      have hcrop : JVal.str s ≠ JVal.str "crop" := by
        intro hh
        apply hnc
        injection hh
      have hme : mergeEvent ov e = wfold e cfg := by
        unfold mergeEvent
        rw [ht]
        simp [htr, hcrop, hlu]
      rw [hme]
      exact dget_wfold_nodup e (hocfg (s, cfg) (lookup_mem_pair hlu)) k

/-- Concrete overlay for the C1 witness: an edit for crop "A" and for
autoirrigation, but none for crop "B". -/
def ovC1 : Overlay :=
  ⟨[[("name", JVal.str "A"), ("tdd", JVal.int 4000)]],
   [("autoirrigation", [("method", JVal.str "furrow")])]⟩

/-- Crop record "A" for the C1 witness. -/
def evCropA : JRecord :=
  [("_event_type", JVal.str "crop"), ("name", JVal.str "A"),
   ("tdd", JVal.int 1200), ("cn_leaf", JVal.int 26)]

/-- Crop record "B" for the C1 witness. -/
def evCropB : JRecord :=
  [("_event_type", JVal.str "crop"), ("name", JVal.str "B"),
   ("tdd", JVal.int 900)]

/-- Witness for C1: merging edits only "A"'s edited field, keeps its
unedited field, and leaves "B" untouched — the spec's own example. -/
theorem C1_merge_selective_witness :
    dget (mergeEvent ovC1 evCropA) "tdd" = some (JVal.int 4000) ∧
    dget (mergeEvent ovC1 evCropA) "cn_leaf" = some (JVal.int 26) ∧
    mergeEvent ovC1 evCropB = evCropB := by
  have h := (C1_merge_selective ovC1 [] (by decide) (by decide) (by decide)
    (by decide)).2
  refine ⟨?_, ?_, ?_⟩
  · rw [((h evCropA).2.1 (by decide)).2
      [("name", JVal.str "A"), ("tdd", JVal.int 4000)] (by decide)
      (by decide) "tdd"]
    decide
  · rw [((h evCropA).2.1 (by decide)).2
      [("name", JVal.str "A"), ("tdd", JVal.int 4000)] (by decide)
      (by decide) "cn_leaf"]
    decide
  · exact ((h evCropB).2.1 (by decide)).1 (by decide)

/-- Claim-side for C4, following the claim's words: the crop name (with
the extractor's empty-string default) of each `crop` event, in source
order. -/
def cropNameList (events : List JRecord) : List JVal :=
  (events.filter
    (fun e => decide (dget e "_event_type" = some (JVal.str "crop")))).map
    nameD

/-- Claim-side for C4: the non-crop `_event_type` values, in source
order. -/
def otherTypeList (events : List JRecord) : List JVal :=
  events.filterMap (fun e =>
    match dget e "_event_type" with
    | some t => if t = JVal.str "crop" then none else some t
    | none => none)

/-- Claim-side for C4: first occurrence of each value, in first-seen
order — keep the head and delete its later duplicates. -/
def dedupFirst : List JVal → List JVal
  | [] => []
  | x :: xs => x :: dedupFirst (xs.filter (fun y => decide (y ≠ x)))
termination_by l => l.length
decreasing_by
  simp only [List.length_cons]
  exact Nat.lt_succ_of_le (List.length_filter_le _ _)

/-- Claim-side for C4: a record is a new representative iff no earlier
record claims the same crop name (crop events) or the same event type
(other events). -/
def keepNew (pre : List JRecord) (e : JRecord) : Bool :=
  match dget e "_event_type" with
  | none => false
  | some t =>
    if t = JVal.str "crop" then
      pre.all (fun p =>
        !(decide (dget p "_event_type" = some (JVal.str "crop")) &&
          decide (nameD p = nameD e)))
    else
      pre.all (fun p => !(decide (dget p "_event_type" = some t)))

/-- Claim-side for C4: the representative filter, walking the list with
the processed prefix. -/
def repFilterGo (pre : List JRecord) : List JRecord → List JRecord
  | [] => []
  | e :: es =>
    if keepNew pre e then e :: repFilterGo (pre ++ [e]) es
    else repFilterGo (pre ++ [e]) es

/-- Claim-side for C4: the filtered list containing exactly one
representative record per crop name and per other event type — always
the first occurrence. -/
def repFilter (events : List JRecord) : List JRecord :=
  repFilterGo [] events

/-- Seen-list formulation of first-occurrence deduplication, the shape of
the extractor's accumulation. -/
def dedupFirstFrom (seen : List JVal) : List JVal → List JVal
  | [] => []
  | x :: xs =>
    if x ∈ seen then dedupFirstFrom seen xs
    else x :: dedupFirstFrom (x :: seen) xs

theorem dedupFirstFrom_eq (l : List JVal) :
    ∀ seen, dedupFirstFrom seen l =
      dedupFirst (l.filter (fun y => decide (y ∉ seen))) := by
  induction l with
  | nil =>
    intro seen
    rw [List.filter_nil, dedupFirst]
    rfl
  | cons x xs ih =>
    intro seen
    by_cases hx : x ∈ seen
    · rw [show dedupFirstFrom seen (x :: xs) = dedupFirstFrom seen xs from
        by simp [dedupFirstFrom, hx]]
      rw [ih seen, List.filter_cons, if_neg (by simpa using hx)]
    · rw [show dedupFirstFrom seen (x :: xs) =
          x :: dedupFirstFrom (x :: seen) xs from by
        simp [dedupFirstFrom, hx]]
      rw [ih (x :: seen), List.filter_cons, if_pos (by simpa using hx)]
      rw [dedupFirst]
      congr 1
      rw [List.filter_filter]
      congr 1
      apply List.filter_congr
      intro a ha
      show decide (a ∉ x :: seen) = (decide (a ≠ x) && decide (a ∉ seen))
      by_cases h1 : a = x <;> by_cases h2 : a ∈ seen <;>
        simp [h1, h2, List.mem_cons]

theorem exists_append_single {P : JRecord → Prop} {pre : List JRecord}
    {e : JRecord} :
    (∃ p ∈ pre ++ [e], P p) ↔ (∃ p ∈ pre, P p) ∨ P e := by
  constructor
  · rintro ⟨p, hp, hP⟩
    rcases List.mem_append.1 hp with h | h
    · exact Or.inl ⟨p, h, hP⟩
    · rw [List.mem_singleton] at h
      subst h
      exact Or.inr hP
  · rintro (⟨p, hp, hP⟩ | hP)
    · exact ⟨p, List.mem_append_left _ hp, hP⟩
    · exact ⟨e, List.mem_append_right _ (List.mem_singleton_self _), hP⟩

theorem keepNew_crop_iff {pre : List JRecord} {e : JRecord}
    (ht : dget e "_event_type" = some (JVal.str "crop")) :
    keepNew pre e = true ↔ ∀ p ∈ pre,
      ¬(dget p "_event_type" = some (JVal.str "crop") ∧
        nameD p = nameD e) := by
  simp only [keepNew, ht, if_pos, List.all_eq_true, Bool.not_eq_true',
    Bool.and_eq_false_iff, decide_eq_false_iff_not, not_and]
  constructor <;> intro h p hp <;> have h2 := h p hp <;> tauto

theorem keepNew_other_iff {pre : List JRecord} {e : JRecord} {t : JVal}
    (ht : dget e "_event_type" = some t) (hc : t ≠ JVal.str "crop") :
    keepNew pre e = true ↔ ∀ p ∈ pre, dget p "_event_type" ≠ some t := by
  simp [keepNew, ht, hc, List.all_eq_true]

theorem iclGo_components (events : List JRecord) :
    ∀ (sc so : List JVal) (pre : List JRecord),
      (∀ e ∈ events, hasTruthyType e = true) →
      (∀ n, n ∈ sc ↔ ∃ p ∈ pre,
        dget p "_event_type" = some (JVal.str "crop") ∧ nameD p = n) →
      (∀ t, t ∈ so ↔ t ≠ JVal.str "crop" ∧
        ∃ p ∈ pre, dget p "_event_type" = some t) →
      (iclGo sc so events).1 = repFilterGo pre events ∧
      (iclGo sc so events).2.1 = dedupFirstFrom sc (cropNameList events) ∧
      (iclGo sc so events).2.2.1 =
        dedupFirstFrom so (otherTypeList events) := by
  induction events with
  | nil =>
    intro sc so pre _ _ _
    exact ⟨rfl, rfl, rfl⟩
  | cons e es ih =>
    intro sc so pre htr inv1 inv2
    have hes : ∀ e' ∈ es, hasTruthyType e' = true :=
      fun e' h' => htr e' (List.mem_cons_of_mem _ h')
    have hte : hasTruthyType e = true := htr e (List.mem_cons_self _ _)
    obtain ⟨t, ht, httr⟩ :
        ∃ t, dget e "_event_type" = some t ∧ truthy t = true := by
      unfold hasTruthyType at hte
      cases h : dget e "_event_type" with
      | none => rw [h] at hte; cases hte
      | some t => rw [h] at hte; exact ⟨t, rfl, hte⟩
    by_cases hcrop : t = JVal.str "crop"
    · subst hcrop
      have hcl : cropNameList (e :: es) = nameD e :: cropNameList es := by
        simp [cropNameList, List.filter_cons, ht]
      have hol : otherTypeList (e :: es) = otherTypeList es := by
        simp [otherTypeList, List.filterMap_cons, ht]
      have inv2' : ∀ t', t' ∈ so ↔ t' ≠ JVal.str "crop" ∧
          ∃ p ∈ pre ++ [e], dget p "_event_type" = some t' := by
        intro t'
        rw [inv2 t']
        constructor
        · rintro ⟨hne, hex⟩
          exact ⟨hne, exists_append_single.2 (Or.inl hex)⟩
        · rintro ⟨hne, hex⟩
          rcases exists_append_single.1 hex with h | h
          · exact ⟨hne, h⟩
          · rw [ht] at h
            injection h with h2
            exact absurd h2.symm hne
      by_cases hn : nameD e ∈ sc
      · have hgo : iclGo sc so (e :: es) =
            ((iclGo sc so es).1, (iclGo sc so es).2.1,
             (iclGo sc so es).2.2.1, e :: (iclGo sc so es).2.2.2) := by
          simp [iclGo, ht, httr, hn]
        have hkeep : keepNew pre e = false := by
          rw [Bool.eq_false_iff, ne_eq, keepNew_crop_iff ht]
          push_neg
          obtain ⟨p, hp, hpc, hpn⟩ := (inv1 (nameD e)).1 hn
          exact ⟨p, hp, hpc, hpn⟩
        have inv1' : ∀ n, n ∈ sc ↔ ∃ p ∈ pre ++ [e],
            dget p "_event_type" = some (JVal.str "crop") ∧
              nameD p = n := by
          intro n
          rw [inv1 n]
          constructor
          · intro h
            exact exists_append_single.2 (Or.inl h)
          · intro h
            rcases exists_append_single.1 h with h | ⟨-, hne⟩
            · exact h
            · exact (inv1 n).1 (hne ▸ hn)
        obtain ⟨ha, hb, hc⟩ := ih sc so (pre ++ [e]) hes inv1' inv2'
        refine ⟨?_, ?_, ?_⟩
        · rw [hgo]
          show (iclGo sc so es).1 = repFilterGo pre (e :: es)
          rw [repFilterGo, if_neg (by simp [hkeep])]
          exact ha
        · rw [hgo, hcl]
          show (iclGo sc so es).2.1 =
            dedupFirstFrom sc (nameD e :: cropNameList es)
          rw [show dedupFirstFrom sc (nameD e :: cropNameList es) =
              dedupFirstFrom sc (cropNameList es) from by
            simp [dedupFirstFrom, hn]]
          exact hb
        · rw [hgo, hol]
          exact hc
      · have hgo : iclGo sc so (e :: es) =
            (e :: (iclGo (nameD e :: sc) so es).1,
             nameD e :: (iclGo (nameD e :: sc) so es).2.1,
             (iclGo (nameD e :: sc) so es).2.2.1,
             e :: (iclGo (nameD e :: sc) so es).2.2.2) := by
          simp [iclGo, ht, httr, hn]
        have hkeep : keepNew pre e = true := by
          rw [keepNew_crop_iff ht]
          intro p hp ⟨hpc, hpn⟩
          exact hn ((inv1 (nameD e)).2 ⟨p, hp, hpc, hpn⟩)
        have inv1' : ∀ n, n ∈ nameD e :: sc ↔ ∃ p ∈ pre ++ [e],
            dget p "_event_type" = some (JVal.str "crop") ∧
              nameD p = n := by
          intro n
          rw [List.mem_cons]
          constructor
          · rintro (h | h)
            · exact exists_append_single.2 (Or.inr ⟨ht, h.symm⟩)
            · exact exists_append_single.2 (Or.inl ((inv1 n).1 h))
          · intro h
            rcases exists_append_single.1 h with h | ⟨-, hne⟩
            · exact Or.inr ((inv1 n).2 h)
            · exact Or.inl hne.symm
        obtain ⟨ha, hb, hc⟩ := ih (nameD e :: sc) so (pre ++ [e]) hes
          inv1' inv2'
        refine ⟨?_, ?_, ?_⟩
        · rw [hgo]
          show e :: (iclGo (nameD e :: sc) so es).1 =
            repFilterGo pre (e :: es)
          rw [repFilterGo, if_pos hkeep]
          rw [ha]
        · rw [hgo, hcl]
          show nameD e :: (iclGo (nameD e :: sc) so es).2.1 =
            dedupFirstFrom sc (nameD e :: cropNameList es)
          rw [show dedupFirstFrom sc (nameD e :: cropNameList es) =
              nameD e :: dedupFirstFrom (nameD e :: sc) (cropNameList es)
            from by simp [dedupFirstFrom, hn]]
          rw [hb]
        · rw [hgo, hol]
          exact hc
    · have hne2 : ¬ dget e "_event_type" = some (JVal.str "crop") := by
        rw [ht]
        intro h
        injection h with h2
        exact hcrop h2
      have hcl : cropNameList (e :: es) = cropNameList es := by
        simp [cropNameList, List.filter_cons, hne2]
      have hol : otherTypeList (e :: es) = t :: otherTypeList es := by
        simp [otherTypeList, List.filterMap_cons, ht, hcrop]
      have inv1' : ∀ n, n ∈ sc ↔ ∃ p ∈ pre ++ [e],
          dget p "_event_type" = some (JVal.str "crop") ∧ nameD p = n := by
        intro n
        rw [inv1 n]
        constructor
        · intro h
          exact exists_append_single.2 (Or.inl h)
        · intro h
          rcases exists_append_single.1 h with h | ⟨hc2, -⟩
          · exact h
          · exact absurd hc2 hne2
      by_cases hs : t ∈ so
      · have hgo : iclGo sc so (e :: es) =
            ((iclGo sc so es).1, (iclGo sc so es).2.1,
             (iclGo sc so es).2.2.1, e :: (iclGo sc so es).2.2.2) := by
          simp [iclGo, ht, httr, hcrop, hs]
        have hkeep : keepNew pre e = false := by
          rw [Bool.eq_false_iff, ne_eq, keepNew_other_iff ht hcrop]
          push_neg
          obtain ⟨-, p, hp, hpt⟩ := (inv2 t).1 hs
          exact ⟨p, hp, hpt⟩
        have inv2' : ∀ t', t' ∈ so ↔ t' ≠ JVal.str "crop" ∧
            ∃ p ∈ pre ++ [e], dget p "_event_type" = some t' := by
          intro t'
          rw [inv2 t']
          constructor
          · rintro ⟨hn2, hex⟩
            exact ⟨hn2, exists_append_single.2 (Or.inl hex)⟩
          · rintro ⟨hn2, hex⟩
            rcases exists_append_single.1 hex with h | h
            · exact ⟨hn2, h⟩
            · rw [ht] at h
              injection h with h2
              exact h2 ▸ (inv2 t).1 hs
        obtain ⟨ha, hb, hc⟩ := ih sc so (pre ++ [e]) hes inv1' inv2'
        refine ⟨?_, ?_, ?_⟩
        · rw [hgo]
          show (iclGo sc so es).1 = repFilterGo pre (e :: es)
          rw [repFilterGo, if_neg (by simp [hkeep])]
          exact ha
        · rw [hgo, hcl]
          exact hb
        · rw [hgo, hol]
          show (iclGo sc so es).2.2.1 =
            dedupFirstFrom so (t :: otherTypeList es)
          rw [show dedupFirstFrom so (t :: otherTypeList es) =
              dedupFirstFrom so (otherTypeList es) from by
            simp [dedupFirstFrom, hs]]
          exact hc
      · have hgo : iclGo sc so (e :: es) =
            (e :: (iclGo sc (t :: so) es).1,
             (iclGo sc (t :: so) es).2.1,
             t :: (iclGo sc (t :: so) es).2.2.1,
             e :: (iclGo sc (t :: so) es).2.2.2) := by
          simp [iclGo, ht, httr, hcrop, hs]
        have hkeep : keepNew pre e = true := by
          rw [keepNew_other_iff ht hcrop]
          intro p hp hpt
          exact hs ((inv2 t).2 ⟨hcrop, p, hp, hpt⟩)
        have inv2' : ∀ t', t' ∈ t :: so ↔ t' ≠ JVal.str "crop" ∧
            ∃ p ∈ pre ++ [e], dget p "_event_type" = some t' := by
          intro t'
          rw [List.mem_cons]
          constructor
          · rintro (h | h)
            · subst h
              exact ⟨hcrop, exists_append_single.2 (Or.inr ht)⟩
            · obtain ⟨hn2, hex⟩ := (inv2 t').1 h
              exact ⟨hn2, exists_append_single.2 (Or.inl hex)⟩
          · rintro ⟨hn2, hex⟩
            rcases exists_append_single.1 hex with h | h
            · exact Or.inr ((inv2 t').2 ⟨hn2, h⟩)
            · rw [ht] at h
              injection h with h2
              exact Or.inl h2.symm
        obtain ⟨ha, hb, hc⟩ := ih sc (t :: so) (pre ++ [e]) hes inv1' inv2'
        refine ⟨?_, ?_, ?_⟩
        · rw [hgo]
          show e :: (iclGo sc (t :: so) es).1 = repFilterGo pre (e :: es)
          rw [repFilterGo, if_pos hkeep]
          rw [ha]
        · rw [hgo, hcl]
          exact hb
        · rw [hgo, hol]
          show t :: (iclGo sc (t :: so) es).2.2.1 =
            dedupFirstFrom so (t :: otherTypeList es)
          rw [show dedupFirstFrom so (t :: otherTypeList es) =
              t :: dedupFirstFrom (t :: so) (otherTypeList es) from by
            simp [dedupFirstFrom, hs]]
          rw [hc]

/-- C4: the Event List Extractor, for documents whose event records all
carry a truthy `_event_type` (the data model's tagging of Event Records).
The crop-name list is the first-occurrence deduplication of the crop
events' names in source order; the other-events list is the
first-occurrence deduplication of the non-crop `_event_type` values in
source order; and the filtered list keeps exactly one representative per
crop name and per non-crop event type — always the first occurrence,
subsequent records with an already-seen crop name or event type being
excluded. -/
theorem C4_extractor_dedup (events : List JRecord)
    (h : ∀ e ∈ events, hasTruthyType e = true) :
    (input_config_list events).2.1 = dedupFirst (cropNameList events) ∧
    (input_config_list events).2.2.1 =
      dedupFirst (otherTypeList events) ∧
    (input_config_list events).1 = repFilter events := by
  obtain ⟨ha, hb, hc⟩ := iclGo_components events [] [] [] h
    (by simp) (by simp)
  unfold input_config_list
  refine ⟨?_, ?_, ha⟩
  · rw [hb, dedupFirstFrom_eq]
    congr 1
    simp
  · rw [hc, dedupFirstFrom_eq]
    congr 1
    simp

/-- Concrete events for the C4 witness: duplicate crop name "A",
duplicate type autoirrigation, then a new crop "B". -/
def evC4 : List JRecord :=
  [[("_event_type", JVal.str "crop"), ("name", JVal.str "A"),
    ("tdd", JVal.int 1)],
   [("_event_type", JVal.str "autoirrigation"),
    ("method", JVal.str "drip")],
   [("_event_type", JVal.str "crop"), ("name", JVal.str "A"),
    ("tdd", JVal.int 2)],
   [("_event_type", JVal.str "autoirrigation"),
    ("method", JVal.str "furrow")],
   [("_event_type", JVal.str "crop"), ("name", JVal.str "B")]]

/-- Witness for C4: on the concrete list the crop names come out as
`["A", "B"]`, the other types as `["autoirrigation"]`, and the filtered
list keeps the first record of each. -/
theorem C4_extractor_dedup_witness :
    (∀ e ∈ evC4, hasTruthyType e = true) ∧
    (input_config_list evC4).2.1 = dedupFirst (cropNameList evC4) ∧
    (input_config_list evC4).2.1 = [JVal.str "A", JVal.str "B"] ∧
    (input_config_list evC4).2.2.1 = [JVal.str "autoirrigation"] := by
  refine ⟨by decide, (C4_extractor_dedup evC4 (by decide)).1, by decide,
    by decide⟩

/-- C6 (amended): both input forms are accepted — a one-element list
wrapping the document routes through the document's own path, a bare
document likewise — and attempting the two paths in either order is
extensionally the same, since no value can satisfy both (the claim
describes the unwrapped path as tried first; the code tries the wrapped
path first, with identical results).  When neither path resolves,
extraction fails; when a path resolves to a non-list, extraction also
fails, except that an empty mapping or empty string at the events
location iterates zero times and returns an empty result (the
counterexample), and a list of records is processed normally. -/
theorem C6_extraction_paths (v : JVal) :
    (∀ d rest, navEvents (JVal.arr (d :: rest)) = navUnwrapped d) ∧
    (∀ l, navEvents (JVal.obj l) = navUnwrapped (JVal.obj l)) ∧
    (navEvents v = (match navUnwrapped v with
      | some e => some e
      | none => navWrapped v)) ∧
    (navEvents v = none → input_config_list_v v = none) ∧
    (∀ E, navEvents v = some E → (∀ l, E ≠ JVal.arr l) →
      E ≠ JVal.obj [] → E ≠ JVal.str "" →
      input_config_list_v v = none) ∧
    (∀ l recs, navEvents v = some (JVal.arr l) →
      l.mapM asRecord = some recs →
      input_config_list_v v = some (input_config_list recs)) ∧
    ((navEvents v = some (JVal.obj []) ∨ navEvents v = some (JVal.str ""))
      → input_config_list_v v = some ([], [], [], [])) := by
  have hua : ∀ l : List JVal, navUnwrapped (JVal.arr l) = none := by
    intro l
    simp [navUnwrapped, oget]
  have hwo : ∀ v' : JVal, (∀ l, v' ≠ JVal.arr l) → navWrapped v' = none := by
    intro v' hv
    cases v' with
    | arr l => exact absurd rfl (hv l)
    | str s => rfl
    | int n => rfl
    | rat q => rfl
    | bool b => rfl
    | obj l => rfl
  refine ⟨?_, ?_, ?_, ?_, ?_, ?_, ?_⟩
  · intro d rest
    have h1 : navWrapped (JVal.arr (d :: rest)) = navUnwrapped d := rfl
    unfold navEvents
    rw [h1, hua]
    cases h : navUnwrapped d <;> simp [h]
  · intro l
    unfold navEvents
    rw [hwo (JVal.obj l) (fun _ h => JVal.noConfusion h)]
  · cases v with
    | arr l =>
      cases l with
      | nil =>
        unfold navEvents
        rw [hua, show navWrapped (JVal.arr []) = none from rfl]
      | cons d rest =>
        unfold navEvents
        rw [show navWrapped (JVal.arr (d :: rest)) = navUnwrapped d
          from rfl, hua]
        cases h : navUnwrapped d <;> simp [h]
    | obj l =>
      unfold navEvents
      rw [hwo (JVal.obj l) (fun _ h => JVal.noConfusion h)]
      cases h : navUnwrapped (JVal.obj l) <;> simp [h]
    | str s =>
      unfold navEvents
      rw [hwo (JVal.str s) (fun _ h => JVal.noConfusion h),
        show navUnwrapped (JVal.str s) = none from rfl]
    | int n =>
      unfold navEvents
      rw [hwo (JVal.int n) (fun _ h => JVal.noConfusion h),
        show navUnwrapped (JVal.int n) = none from rfl]
    | rat q =>
      unfold navEvents
      rw [hwo (JVal.rat q) (fun _ h => JVal.noConfusion h),
        show navUnwrapped (JVal.rat q) = none from rfl]
    | bool b =>
      unfold navEvents
      rw [hwo (JVal.bool b) (fun _ h => JVal.noConfusion h),
        show navUnwrapped (JVal.bool b) = none from rfl]
  · intro h
    simp [input_config_list_v, h]
  · intro E hE hnarr hnobj hnstr
    unfold input_config_list_v
    rw [hE]
    cases E with
    | arr l => exact absurd rfl (hnarr l)
    | obj l =>
      have : ¬ l = [] := fun hh => hnobj (by rw [hh])
      simp [this]
    | str s =>
      have : ¬ s = "" := fun hh => hnstr (by rw [hh])
      simp [this]
    | int n => rfl
    | rat q => rfl
    | bool b => rfl
  · intro l recs hE hm
    unfold input_config_list_v
    rw [hE]
    show (l.mapM asRecord).map input_config_list = _
    rw [hm]
    rfl
  · intro h
    unfold input_config_list_v
    rcases h with h | h <;> rw [h] <;> simp

/-- Document whose events path resolves to an empty mapping (not a
list). -/
def docC6 : JVal :=
  JVal.obj [("sites", JVal.arr [JVal.obj [("fields", JVal.arr [JVal.obj
    [("rotations", JVal.arr [JVal.obj
      [("events", JVal.obj [])]])]])]])]

/-- C6 counterexample: neither the wrapped nor the unwrapped path
resolves to a list at the events location — the value there is an empty
mapping — yet extraction returns an empty result `([], [], [], [])`
instead of failing: the Python loop iterates an empty dict zero times. -/
theorem C6_extraction_counterexample :
    input_config_list_v docC6 = some ([], [], [], []) ∧
    input_config_list_v docC6 ≠ none := by
  refine ⟨rfl, ?_⟩
  intro h
  exact Option.noConfusion (rfl.symm.trans h)

/-- A wrapped document with a genuine events list, for the C6 witness. -/
def docC6w : JVal :=
  JVal.arr [JVal.obj [("sites", JVal.arr [JVal.obj [("fields", JVal.arr
    [JVal.obj [("rotations", JVal.arr [JVal.obj [("events", JVal.arr
      [JVal.obj [("_event_type", JVal.str "crop"),
        ("name", JVal.str "A")]])]])]])]])]]

/-- Witness for C6: an empty-object upload fails extraction, and the
wrapped document form is accepted and processed. -/
theorem C6_extraction_paths_witness :
    input_config_list_v (JVal.obj []) = none ∧
    input_config_list_v docC6w = some (input_config_list
      [[("_event_type", JVal.str "crop"), ("name", JVal.str "A")]]) :=
  ⟨(C6_extraction_paths (JVal.obj [])).2.2.2.1 rfl,
   (C6_extraction_paths docC6w).2.2.2.2.2.1 _ _ rfl rfl⟩

theorem daysInYear_ge (y : ℕ) : 365 ≤ daysInYear y := by
  unfold daysInYear
  split <;> omega

set_option maxHeartbeats 1000000 in
theorem daysBeforeYear_succ (y : ℕ) (h : 1 ≤ y) :
    daysBeforeYear (y + 1) = daysBeforeYear y + daysInYear y := by
  cases y with
  | zero => exact absurd h (by omega)
  | succ m =>
    have e1 : m + 1 - 1 = m := by omega
    have e2 : m + 1 + 1 - 1 = m + 1 := by omega
    have hiff : isLeap (m + 1) = true ↔
        ((m + 1) % 4 = 0 ∧ (m + 1) % 100 ≠ 0 ∨ (m + 1) % 400 = 0) := by
      simp [isLeap]
    unfold daysBeforeYear daysInYear
    rw [e1, e2]
    split
    · rename_i hl
      rw [hiff] at hl
      omega
    · rename_i hl
      have hl2 : ¬ ((m + 1) % 4 = 0 ∧ (m + 1) % 100 ≠ 0 ∨
          (m + 1) % 400 = 0) := fun hc => hl (hiff.2 hc)
      omega

theorem daysBeforeYear_mono {y y' : ℕ} (h1 : 1 ≤ y) (h : y ≤ y') :
    daysBeforeYear y ≤ daysBeforeYear y' := by
  induction y', h using Nat.le_induction with
  | base => exact le_refl _
  | succ n hn ih =>
    calc daysBeforeYear y ≤ daysBeforeYear n := ih
    _ ≤ daysBeforeYear (n + 1) := by
        rw [daysBeforeYear_succ n (le_trans h1 hn)]
        exact Nat.le_add_right _ _

theorem numDigits_eq_four {n : ℕ} (h1 : 1000 ≤ n) (h2 : n ≤ 9999) :
    numDigits n = 4 := by
  unfold numDigits
  rw [show Nat.log 10 n = 3 from
    Nat.log_eq_of_pow_le_of_lt_pow (by norm_num; omega)
      (by norm_num; omega)]

theorem numDigits_le_three {n : ℕ} (h : n ≤ 999) : numDigits n ≤ 3 := by
  unfold numDigits
  rcases Nat.eq_zero_or_pos n with h0 | h0
  · subst h0
    simp [Nat.log_zero_right]
  · have : Nat.log 10 n < 3 :=
      Nat.log_lt_of_lt_pow (by omega) (by norm_num; omega)
    omega

theorem parseYJ_eval {y d : ℤ} (hy1 : 1678 ≤ y) (hy2 : y ≤ 2261)
    (hd1 : 1 ≤ d) (hd2 : d ≤ 365) :
    parseYJ y d = some (toOrdinal y.toNat d.toNat) := by
  have hny : numDigits y.toNat = 4 :=
    numDigits_eq_four (by omega) (by omega)
  have hnd3 : numDigits d.toNat ≤ 3 := numDigits_le_three (by omega)
  have hnd1 : 1 ≤ numDigits d.toNat := by
    unfold numDigits
    omega
  have hyr : yrYJ y d = y.toNat := by
    unfold yrYJ
    rw [if_pos (by omega), hny]
    norm_num
  have hrest : restYJ y d = d.toNat := by
    unfold restYJ
    rw [if_pos (by omega), hny]
    simp [Nat.mod_one]
  have hmono1 : daysBeforeYear 1678 ≤ daysBeforeYear y.toNat :=
    daysBeforeYear_mono (by omega) (by omega)
  have hmono2 : daysBeforeYear y.toNat ≤ daysBeforeYear 2261 :=
    daysBeforeYear_mono (by omega) (by omega)
  have hstep1 : daysBeforeYear 1678 = daysBeforeYear 1677 + 365 := by
    rw [show (1678 : ℕ) = 1677 + 1 from rfl,
      daysBeforeYear_succ 1677 (by omega),
      show daysInYear 1677 = 365 from by decide]
  have hstep2 : daysBeforeYear 2262 = daysBeforeYear 2261 + 365 := by
    rw [show (2262 : ℕ) = 2261 + 1 from rfl,
      daysBeforeYear_succ 2261 (by omega),
      show daysInYear 2261 = 365 from by decide]
  unfold parseYJ
  rw [if_neg (by omega), if_neg (by omega), hyr, hrest,
    if_neg (by omega), if_neg ?hns]
  case hns =>
    unfold nsMinOrdinal nsMaxOrdinal toOrdinal
    omega

/-- The year of an ordinal: year `y` when the ordinal lies strictly after
the days before `y` and within `y`'s own days. -/
def dateYearIs (n y : ℕ) : Prop :=
  daysBeforeYear y < n ∧ n ≤ daysBeforeYear (y + 1)

theorem toOrdinal_year {y d : ℕ} (hy : 1 ≤ y) (hd1 : 1 ≤ d)
    (hd2 : d ≤ 365) :
    dateYearIs (toOrdinal y d) y ∧
    (∀ y', 1 ≤ y' → dateYearIs (toOrdinal y d) y' → y' = y) ∧
    toOrdinal y d - daysBeforeYear y = d := by
  have hsucc := daysBeforeYear_succ y hy
  have h365 := daysInYear_ge y
  refine ⟨⟨by unfold toOrdinal; omega, by unfold toOrdinal; omega⟩,
    ?_, by unfold toOrdinal; omega⟩
  rintro y' hy' ⟨ha, hb⟩
  by_contra hne
  rcases Nat.lt_or_ge y' y with hlt | hge
  · have h1 : daysBeforeYear (y' + 1) ≤ daysBeforeYear y :=
      daysBeforeYear_mono (by omega) (by omega)
    unfold toOrdinal at ha hb
    omega
  · have hlt2 : y < y' := by omega
    have h1 : daysBeforeYear (y + 1) ≤ daysBeforeYear y' :=
      daysBeforeYear_mono (by omega) (by omega)
    unfold toOrdinal at ha hb
    omega

theorem mapDates_eval {α : Type} (df : List (TRow α))
    (h : ∀ r ∈ df, parseYJ r.year r.day =
      some (toOrdinal r.year.toNat r.day.toNat)) :
    mapDates df =
      some (df.map (fun r => (r, toOrdinal r.year.toNat r.day.toNat))) := by
  induction df with
  | nil => rfl
  | cons r rs ih =>
    have hr := h r (List.mem_cons_self _ _)
    have ht := ih (fun r' h' => h r' (List.mem_cons_of_mem _ h'))
    simp [mapDates, hr, ht]

/-- C2 (amended): for tables whose `Year` column lies in `[1678, 2261]`
and `Day` column in `[1, 365]`, the Date Reconstructor returns the table
with a derived date equal to the ordinal of day `Day` of year `Year`
(January 1 of `Year` plus `Day - 1` days), filtered to the rows whose
date lies in the inclusive bounds (default 1900-01-01/3000-01-01); the
reconstructed date's year is `Year` (and no other year) and its
day-of-year is `Day`; filtering to equal bounds `d` keeps exactly the
rows whose reconstructed date is `d`.  The year range `[1678, 2261]` is
the largest over which every day 1-365 both parses (`%Y` needs exactly
four digit characters, which rules out year 500 — the counterexample)
and fits `datetime64[ns]` (first full day 1677-09-22, last 2262-04-11).
Outside it the behaviour varies by input — year 500 raises, year 1677
raises only for days before 265, a five-digit year parses as a different
date altogether — so the amendment restricts the quantifier and asserts
nothing beyond it. -/
theorem C2_date_reconstruction {α : Type} (df : List (TRow α))
    (lo hi : Option ℕ)
    (hy : ∀ r ∈ df, 1678 ≤ r.year ∧ r.year ≤ 2261)
    (hd : ∀ r ∈ df, 1 ≤ r.day ∧ r.day ≤ 365) :
    return_output_df df lo hi =
      some ((df.map
        (fun r => (r, toOrdinal r.year.toNat r.day.toNat))).filter
        (fun p => decide (lo.getD defaultMinDate ≤ p.2 ∧
          p.2 ≤ hi.getD defaultMaxDate))) ∧
    (∀ r ∈ df,
      dateYearIs (toOrdinal r.year.toNat r.day.toNat) r.year.toNat ∧
      (∀ y', 1 ≤ y' →
        dateYearIs (toOrdinal r.year.toNat r.day.toNat) y' →
        y' = r.year.toNat) ∧
      toOrdinal r.year.toNat r.day.toNat -
        daysBeforeYear r.year.toNat = r.day.toNat) ∧
    (∀ d0 : ℕ, return_output_df df (some d0) (some d0) =
      some ((df.map
        (fun r => (r, toOrdinal r.year.toNat r.day.toNat))).filter
        (fun p => decide (p.2 = d0)))) := by
  have hparse : ∀ r ∈ df, parseYJ r.year r.day =
      some (toOrdinal r.year.toNat r.day.toNat) := fun r hr =>
    parseYJ_eval (hy r hr).1 (hy r hr).2 (hd r hr).1 (hd r hr).2
  refine ⟨?_, ?_, ?_⟩
  · unfold return_output_df
    rw [mapDates_eval df hparse]
    rfl
  · intro r hr
    have h1 := hy r hr
    have h2 := hd r hr
    exact toOrdinal_year (by omega) (by omega) (by omega)
  · intro d0
    unfold return_output_df
    rw [mapDates_eval df hparse]
    show some (List.filter _ _) = some (List.filter _ _)
    congr 1
    apply List.filter_congr
    intro p hp
    show decide ((some d0).getD defaultMinDate ≤ p.2 ∧
      p.2 ≤ (some d0).getD defaultMaxDate) = decide (p.2 = d0)
    by_cases hh : p.2 = d0
    · subst hh
      simp
    · simp only [Option.getD_some]
      rw [decide_eq_decide]
      constructor
      · intro hcc
        omega
      · intro hcc
        exact absurd hcc hh

/-- C2 counterexample: a one-row table with `Year = 500`, `Day = 1`.
The claim (with default bounds) requires the filtered table
`some []` — the date 500-01-01 is below the default lower bound — but
the reconstruction errors out: `str(500) + str(1) = "5001"` has only
four characters, `%Y` consumes all of them and `%j` matches nothing. -/
theorem C2_date_reconstruction_counterexample :
    return_output_df (α := Unit) [⟨500, 1, ()⟩] none none = none ∧
    ∀ out, return_output_df (α := Unit) [⟨500, 1, ()⟩] none none ≠
      some out := by
  have h500 : ((500 : ℤ)).toNat = 500 := rfl
  have h1 : ((1 : ℤ)).toNat = 1 := rfl
  have hn500 : numDigits 500 = 3 := by
    unfold numDigits
    rw [show Nat.log 10 500 = 2 from
      Nat.log_eq_of_pow_le_of_lt_pow (by norm_num) (by norm_num)]
  have hn1 : numDigits 1 = 1 := by
    unfold numDigits
    rw [show Nat.log 10 1 = 0 from
      Nat.log_eq_of_pow_le_of_lt_pow (by norm_num) (by norm_num)]
  have hp : parseYJ 500 1 = none := by
    unfold parseYJ
    rw [if_neg (by omega), if_pos]
    rw [h500, h1, hn500, hn1]
    omega
  have hmain : return_output_df (α := Unit) [⟨500, 1, ()⟩] none none =
      none := by
    simp [return_output_df, mapDates, hp]
  exact ⟨hmain, fun out h => Option.noConfusion (hmain ▸ h)⟩

/-- The 2020-06-01 row (day 153 of leap year 2020) for the C2 witness. -/
def rowC2 : TRow Unit := ⟨2020, 153, ()⟩

/-- The ordinal of 2020-06-01. -/
def dC2 : ℕ := toOrdinal 2020 153

/-- Witness for C2 at the spec's example: filtering to
`min_date = max_date =` 2020-06-01 keeps exactly the row whose
reconstructed date is that day. -/
theorem C2_date_reconstruction_witness :
    (∀ r ∈ [rowC2], 1678 ≤ r.year ∧ r.year ≤ 2261) ∧
    (∀ r ∈ [rowC2], 1 ≤ r.day ∧ r.day ≤ 365) ∧
    return_output_df [rowC2] (some dC2) (some dC2) =
      some [(rowC2, dC2)] := by
  refine ⟨by decide, by decide, ?_⟩
  rw [(C2_date_reconstruction [rowC2] none none (by decide)
    (by decide)).2.2 dC2]
  decide

end Dndc
